import Mathlib

/-!
Verification of the sentiment fusion and backtesting engine of the
CampusChallenge repository.

The development shallowly embeds the relevant program functions:

* `signalPositionsForDay`, `runSignalStrategy` model
  `_signal_positions_for_day` and `run_signal_strategy` from
  `src/signal_driven strategy/strategy_daily_direction.py`;
* `assignWeights`, `formPortfolios`, `maxDrawdown` model `assign_weights`,
  `form_portfolios` and the drawdown part of `calculate_performance_metrics`
  from `src/Modeling and Analysis/portfolio_backtest.py`;
* `fuseDay` models one `(ticker, date)` iteration of `fuse_group` from
  `src/sentiment_merge_daily.py` (the loop body of `fuse_group` in
  `src/sentiment_merge_monthly.py` is identical).

Python floats are modelled as exact rationals (`ℚ`) where the code is pure
arithmetic, and as real numbers (`ℝ`) where the code uses `2.0 ** x` and
`tanh`.  A float `NaN` sentiment value is modelled as `Option.none`.  Where
the reachability of the `den == 0` branch of `fuse_group` is itself at
stake, the float64 underflow of `np.power(2.0, x)` to exactly `0.0` is
modelled explicitly (`decayWF`, `fuseDenF`, `fuseBarF`).
-/

namespace CampusBacktest

/-! ## Daily threshold strategy (`strategy_daily_direction.py`) -/

/-- The three regime modes of `_signal_positions_for_day`. -/
inductive Mode
  | longShort
  | longOnly
  | flat
  deriving DecidableEq

/-- The `side` column of a position row. -/
inductive Side
  | long
  | short
  deriving DecidableEq

/-- One input row of the backtest file: `(date, ticker, sentiment, N_RET)`
restricted to a single day group (the `date` is the group key and is not
repeated per row). -/
structure Row where
  ticker : Nat
  sentiment : ℚ
  nret : ℚ
  deriving DecidableEq

/-- One row of the `positions` frame built by `_signal_positions_for_day`. -/
structure SPos where
  ticker : Nat
  sentiment : ℚ
  nret : ℚ
  weight : ℚ
  side : Side
  contribution : ℚ
  deriving DecidableEq

/-- The per-day summary dictionary of `_signal_positions_for_day`. -/
structure DaySummary where
  mode : Mode
  nLong : Nat
  nShort : Nat
  longExposure : ℚ
  shortExposure : ℚ
  netExposure : ℚ
  grossExposure : ℚ
  deriving DecidableEq

/-- The mode/weight selection block of `_signal_positions_for_day`
(the `if n_long > 0 and n_short > 0 ... elif ... else ...` cascade). -/
def modeWeights (nLong nShort : Nat) (lsLongExp lsShortExp loExp : ℚ) : Mode × ℚ × ℚ :=
  if 0 < nLong ∧ 0 < nShort then
    (Mode.longShort, lsLongExp / (nLong : ℚ), -lsShortExp / (nShort : ℚ))
  else if 0 < nLong ∧ nShort = 0 then
    (Mode.longOnly, loExp / (nLong : ℚ), 0)
  else
    (Mode.flat, 0, 0)

/-- A long-side position row (`long_df` row with `weight`, `side` and
`contribution = weight * N_RET`). -/
def mkLongPos (w : ℚ) (r : Row) : SPos :=
  ⟨r.ticker, r.sentiment, r.nret, w, Side.long, w * r.nret⟩

/-- A short-side position row. -/
def mkShortPos (w : ℚ) (r : Row) : SPos :=
  ⟨r.ticker, r.sentiment, r.nret, w, Side.short, w * r.nret⟩

/-- The `pos_frames` concatenation of `_signal_positions_for_day`: a side is
appended only when its weight is non-zero. -/
def buildFrames (longDf shortDf : List Row) (longW shortW : ℚ) : List SPos :=
  (if longW ≠ 0 then longDf.map (mkLongPos longW) else []) ++
  (if shortW ≠ 0 then shortDf.map (mkShortPos shortW) else [])

/-- The summary dictionary of `_signal_positions_for_day`: exposures are zero
for an empty positions frame, otherwise signed/absolute weight sums. -/
def summarize (mode : Mode) (nLong nShort : Nat) (posFrames : List SPos) : DaySummary :=
  if posFrames.isEmpty then
    ⟨mode, nLong, nShort, 0, 0, 0, 0⟩
  else
    ⟨mode, nLong, nShort,
      ((posFrames.filter fun p => 0 < p.weight).map SPos.weight).sum,
      ((posFrames.filter fun p => p.weight < 0).map SPos.weight).sum,
      (posFrames.map SPos.weight).sum,
      (posFrames.map fun p => |p.weight|).sum⟩

/-- Model of `_signal_positions_for_day` (strategy_daily_direction.py,
lines 31–95): threshold masks, mode selection, per-side weights,
contributions and the exposure summary. -/
def signalPositionsForDay (day : List Row)
    (threshold lsLongExp lsShortExp loExp : ℚ) : List SPos × DaySummary :=
  let longDf := day.filter fun r => threshold < r.sentiment
  let shortDf := day.filter fun r => r.sentiment < -threshold
  let mws := modeWeights longDf.length shortDf.length lsLongExp lsShortExp loExp
  let posFrames := buildFrames longDf shortDf mws.2.1 mws.2.2
  (posFrames, summarize mws.1 longDf.length shortDf.length posFrames)

lemma modeWeights_longOnly (nLong nShort : Nat) (lsLongExp lsShortExp loExp : ℚ)
    (h1 : 0 < nLong) (h2 : nShort = 0) :
    modeWeights nLong nShort lsLongExp lsShortExp loExp =
      (Mode.longOnly, loExp / (nLong : ℚ), 0) := by
  rw [modeWeights, if_neg (by omega), if_pos ⟨h1, h2⟩]

lemma summarize_mode (mode : Mode) (nLong nShort : Nat) (posFrames : List SPos) :
    (summarize mode nLong nShort posFrames).mode = mode := by
  rw [summarize]
  split <;> rfl

lemma summarize_gross_of_ne_nil (mode : Mode) (nLong nShort : Nat)
    (posFrames : List SPos) (h : posFrames ≠ []) :
    (summarize mode nLong nShort posFrames).grossExposure =
      (posFrames.map fun p => |p.weight|).sum := by
  rw [summarize, if_neg (by simpa [List.isEmpty_iff] using h)]

lemma summarize_gross_nil (mode : Mode) (nLong nShort : Nat) :
    (summarize mode nLong nShort []).grossExposure = 0 := rfl

/-- One entry of the `daily_records` list built by `run_signal_strategy`. -/
structure DailyRec where
  mode : Mode
  dailyReturn : ℚ
  capitalStart : ℚ
  pnl : ℚ
  capitalEnd : ℚ
  deriving DecidableEq

/-- The capital fold of `run_signal_strategy` (lines 98–152): the `capital`
accumulator threads through the sorted day groups. -/
def runAux (threshold lsLongExp lsShortExp loExp : ℚ) :
    ℚ → List (List Row) → List DailyRec
  | _, [] => []
  | capital, d :: rest =>
    let ps := signalPositionsForDay d threshold lsLongExp lsShortExp loExp
    let dailyReturn := if ps.1.isEmpty then 0 else (ps.1.map SPos.contribution).sum
    let pnl := capital * dailyReturn
    ⟨ps.2.mode, dailyReturn, capital, pnl, capital + pnl⟩ ::
      runAux threshold lsLongExp lsShortExp loExp (capital + pnl) rest

/-- Model of `run_signal_strategy`: the input is the chronologically sorted
list of day groups (`df.groupby("date", sort=True)`). -/
def runSignalStrategy (days : List (List Row))
    (threshold lsLongExp lsShortExp loExp initialCapital : ℚ) : List DailyRec :=
  runAux threshold lsLongExp lsShortExp loExp initialCapital days

lemma runAux_head_start (threshold lsLongExp lsShortExp loExp c : ℚ)
    (days : List (List Row)) (r : DailyRec)
    (h : (runAux threshold lsLongExp lsShortExp loExp c days).head? = some r) :
    r.capitalStart = c := by
  cases days with
  | nil => simp [runAux] at h
  | cons d rest =>
    simp only [runAux, List.head?_cons, Option.some.injEq] at h
    subst h
    rfl

lemma runAux_chain (threshold lsLongExp lsShortExp loExp : ℚ) :
    ∀ (days : List (List Row)) (c : ℚ),
      List.Chain' (fun a b => b.capitalStart = a.capitalEnd)
        (runAux threshold lsLongExp lsShortExp loExp c days)
  | [], _ => List.chain'_nil
  | d :: rest, c => by
    rw [runAux, List.chain'_cons']
    refine ⟨fun b hb => ?_, runAux_chain threshold lsLongExp lsShortExp loExp rest _⟩
    exact runAux_head_start _ _ _ _ _ _ _ hb

lemma runAux_records (threshold lsLongExp lsShortExp loExp : ℚ) :
    ∀ (days : List (List Row)) (c : ℚ),
      ∀ r ∈ runAux threshold lsLongExp lsShortExp loExp c days,
        r.pnl = r.capitalStart * r.dailyReturn ∧ r.capitalEnd = r.capitalStart + r.pnl
  | [], _ => by simp [runAux]
  | d :: rest, c => by
    intro r hr
    rw [runAux, List.mem_cons] at hr
    rcases hr with h | h
    · subst h
      exact ⟨rfl, rfl⟩
    · exact runAux_records threshold lsLongExp lsShortExp loExp rest _ r h

/-- C2: every run of the daily capital simulation yields records forming a
chronological chain — `capital_start` of each day equals `capital_end` of the
previous day, the first record's `capital_start` is the configured initial
capital, and each record satisfies `pnl = capital_start * daily_return` and
`capital_end = capital_start + pnl` (daily compounding). -/
theorem run_signal_capital_chain (days : List (List Row))
    (threshold lsLongExp lsShortExp loExp initialCapital : ℚ) :
    List.Chain' (fun a b => b.capitalStart = a.capitalEnd)
      (runSignalStrategy days threshold lsLongExp lsShortExp loExp initialCapital)
    ∧ (∀ r, (runSignalStrategy days threshold lsLongExp lsShortExp loExp
        initialCapital).head? = some r → r.capitalStart = initialCapital)
    ∧ ∀ r ∈ runSignalStrategy days threshold lsLongExp lsShortExp loExp initialCapital,
        r.pnl = r.capitalStart * r.dailyReturn ∧ r.capitalEnd = r.capitalStart + r.pnl :=
  ⟨runAux_chain threshold lsLongExp lsShortExp loExp days initialCapital,
   fun r h => runAux_head_start threshold lsLongExp lsShortExp loExp initialCapital days r h,
   runAux_records threshold lsLongExp lsShortExp loExp days initialCapital⟩

/-- Witness for C2 on a concrete two-day input. -/
theorem run_signal_capital_chain_witness :
    List.Chain' (fun a b => b.capitalStart = a.capitalEnd)
      (runSignalStrategy [[⟨0, 1, 0⟩], [⟨0, 1, 0⟩]] (1/2) 2 1 1 100)
    ∧ DailyRec.capitalStart ⟨Mode.longOnly, 0, 100, 0, 100⟩ = 100 :=
  ⟨(run_signal_capital_chain [[⟨0, 1, 0⟩], [⟨0, 1, 0⟩]] (1/2) 2 1 1 100).1,
   (run_signal_capital_chain [[⟨0, 1, 0⟩], [⟨0, 1, 0⟩]] (1/2) 2 1 1 100).2.1
     ⟨Mode.longOnly, 0, 100, 0, 100⟩ (by norm_num [runSignalStrategy, runAux,
       signalPositionsForDay, modeWeights, buildFrames, summarize, mkLongPos, mkShortPos])⟩

lemma sum_map_of_const {α : Type} (l : List α) (f : α → ℚ) (c : ℚ)
    (h : ∀ x ∈ l, f x = c) : (l.map f).sum = l.length * c := by
  induction l with
  | nil => simp
  | cons x r ih =>
    have hx := h x (List.mem_cons_self x r)
    have hr := ih fun y hy => h y (List.mem_cons_of_mem x hy)
    simp only [List.map_cons, List.sum_cons, hx, hr, List.length_cons]
    push_cast
    ring

/-- C6: on a day with at least one qualifying long and no qualifying short,
the strategy enters `long_only` mode, every position receives weight
`long_only_exposure / n_long`, and the gross exposure equals the configured
long-only exposure constant (hence differs from the long-short long exposure
constant whenever the two constants differ). -/
theorem signal_positions_long_only_mode (day : List Row)
    (threshold lsLongExp lsShortExp loExp : ℚ)
    (hLong : 0 < (day.filter fun r => threshold < r.sentiment).length)
    (hShort : (day.filter fun r => r.sentiment < -threshold).length = 0)
    (hExp : 0 ≤ loExp) :
    (signalPositionsForDay day threshold lsLongExp lsShortExp loExp).2.mode = Mode.longOnly
    ∧ (∀ p ∈ (signalPositionsForDay day threshold lsLongExp lsShortExp loExp).1,
        p.weight = loExp / ((day.filter fun r => threshold < r.sentiment).length : ℚ))
    ∧ (signalPositionsForDay day threshold lsLongExp lsShortExp loExp).2.grossExposure = loExp
    ∧ (loExp ≠ lsLongExp →
        (signalPositionsForDay day threshold lsLongExp lsShortExp loExp).2.grossExposure
          ≠ lsLongExp) := by
  have hmw := modeWeights_longOnly _ _ lsLongExp lsShortExp loExp hLong hShort
  have h1 : signalPositionsForDay day threshold lsLongExp lsShortExp loExp =
      (buildFrames (day.filter fun r => threshold < r.sentiment)
        (day.filter fun r => r.sentiment < -threshold)
        (loExp / ((day.filter fun r => threshold < r.sentiment).length : ℚ)) 0,
       summarize Mode.longOnly (day.filter fun r => threshold < r.sentiment).length
        (day.filter fun r => r.sentiment < -threshold).length
        (buildFrames (day.filter fun r => threshold < r.sentiment)
          (day.filter fun r => r.sentiment < -threshold)
          (loExp / ((day.filter fun r => threshold < r.sentiment).length : ℚ)) 0)) := by
    simp only [signalPositionsForDay]
    rw [hmw]
  have hbf : buildFrames (day.filter fun r => threshold < r.sentiment)
      (day.filter fun r => r.sentiment < -threshold)
      (loExp / ((day.filter fun r => threshold < r.sentiment).length : ℚ)) 0 =
      if loExp / ((day.filter fun r => threshold < r.sentiment).length : ℚ) ≠ 0 then
        (day.filter fun r => threshold < r.sentiment).map
          (mkLongPos (loExp / ((day.filter fun r => threshold < r.sentiment).length : ℚ)))
      else [] := by
    rw [buildFrames, if_neg (show ¬((0:ℚ) ≠ 0) from fun h => h rfl), List.append_nil]
  by_cases hE : loExp = 0
  · have hw0 : loExp / ((day.filter fun r => threshold < r.sentiment).length : ℚ) = 0 := by
      rw [hE, zero_div]
    have hfr : buildFrames (day.filter fun r => threshold < r.sentiment)
        (day.filter fun r => r.sentiment < -threshold)
        (loExp / ((day.filter fun r => threshold < r.sentiment).length : ℚ)) 0 = [] := by
      rw [hbf, if_neg (by rw [hw0]; exact fun h => h rfl)]
    refine ⟨?_, ?_, ?_, ?_⟩
    · rw [h1]
      exact summarize_mode _ _ _ _
    · intro p hp
      rw [h1] at hp
      rw [hfr] at hp
      simp at hp
    · rw [h1]
      show (summarize _ _ _ _).grossExposure = loExp
      rw [hfr, summarize_gross_nil, hE]
    · intro hne
      rw [h1]
      show (summarize _ _ _ _).grossExposure ≠ lsLongExp
      rw [hfr, summarize_gross_nil]
      rw [hE] at hne
      exact hne
  · have hn0 : ((day.filter fun r => threshold < r.sentiment).length : ℚ) ≠ 0 :=
      Nat.cast_ne_zero.mpr (Nat.pos_iff_ne_zero.mp hLong)
    have hlw : loExp / ((day.filter fun r => threshold < r.sentiment).length : ℚ) ≠ 0 :=
      div_ne_zero hE hn0
    have hfr : buildFrames (day.filter fun r => threshold < r.sentiment)
        (day.filter fun r => r.sentiment < -threshold)
        (loExp / ((day.filter fun r => threshold < r.sentiment).length : ℚ)) 0 =
        (day.filter fun r => threshold < r.sentiment).map
          (mkLongPos (loExp / ((day.filter fun r => threshold < r.sentiment).length : ℚ))) := by
      rw [hbf, if_pos hlw]
    have hfrne : (day.filter fun r => threshold < r.sentiment).map
        (mkLongPos (loExp / ((day.filter fun r => threshold < r.sentiment).length : ℚ)))
        ≠ [] := by
      intro hnil
      rw [List.map_eq_nil_iff] at hnil
      rw [hnil] at hLong
      simp at hLong
    have habs : ∀ (l : List Row) (w : ℚ), 0 ≤ w →
        ((l.map (mkLongPos w)).map fun p => |p.weight|).sum = (l.length : ℚ) * w := by
      intro l w hw
      induction l with
      | nil => simp
      | cons x xs ih =>
        simp only [List.map_cons, List.sum_cons, ih, List.length_cons, mkLongPos]
        rw [abs_of_nonneg hw]
        push_cast
        ring
    have hgross : (signalPositionsForDay day threshold lsLongExp lsShortExp
        loExp).2.grossExposure = loExp := by
      rw [h1]
      show (summarize _ _ _ _).grossExposure = loExp
      rw [hfr, summarize_gross_of_ne_nil _ _ _ _ hfrne,
        habs _ _ (div_nonneg hExp (Nat.cast_nonneg _)), mul_comm,
        div_mul_cancel₀ _ hn0]
    refine ⟨?_, ?_, hgross, fun hne => by rw [hgross]; exact hne⟩
    · rw [h1]
      exact summarize_mode _ _ _ _
    · intro p hp
      rw [h1] at hp
      rw [hfr] at hp
      simp only [List.mem_map] at hp
      obtain ⟨r, _, hr⟩ := hp
      rw [← hr]
      rfl

/-- Witness for C6: one qualifying long with the configured exposure
constants (long-only 0.8, long-short long 1.8). -/
theorem signal_positions_long_only_mode_witness :
    (signalPositionsForDay [⟨0, 1, 0⟩] (1/2) (9/5) 1 (4/5)).2.mode = Mode.longOnly
    ∧ (signalPositionsForDay [⟨0, 1, 0⟩] (1/2) (9/5) 1 (4/5)).2.grossExposure = 4/5 :=
  ⟨(signal_positions_long_only_mode [⟨0, 1, 0⟩] (1/2) (9/5) 1 (4/5)
      (by norm_num [List.filter]) (by norm_num [List.filter]) (by norm_num)).1,
   (signal_positions_long_only_mode [⟨0, 1, 0⟩] (1/2) (9/5) 1 (4/5)
      (by norm_num [List.filter]) (by norm_num [List.filter]) (by norm_num)).2.2.1⟩

/-! ## Portfolio weight assignment (`portfolio_backtest.py`, `assign_weights`) -/

/-- One row of the `portfolio_df` frame:
`(rebalance_period, Ticker, signal_score, MV_USD_lag, position)`.
Rebalance periods are identified by natural numbers. -/
structure PortMember where
  period : Nat
  ticker : Nat
  score : ℚ
  mv : ℚ
  side : Side
  deriving DecidableEq

/-- The two weighting schemes of `assign_weights`. -/
inductive Scheme
  | equal
  | value
  deriving DecidableEq

/-- The rows of a `(rebalance_period, position)` group. -/
def groupRows (l : List PortMember) (p : Nat) (s : Side) : List PortMember :=
  l.filter fun m => m.period = p ∧ m.side = s

/-- `groupby(['rebalance_period','position'])['Ticker'].transform('count')`. -/
def groupCount (l : List PortMember) (p : Nat) (s : Side) : Nat :=
  (groupRows l p s).length

/-- `groupby(['rebalance_period','position'])['MV_USD_lag'].transform('sum')`. -/
def groupMvSum (l : List PortMember) (p : Nat) (s : Side) : ℚ :=
  ((groupRows l p s).map PortMember.mv).sum

/-- The weight `assign_weights` gives one row: `1/count` for the equal
scheme, `MV_USD_lag / sum(MV_USD_lag)` for the value scheme, both over the
row's own `(rebalance_period, position)` group. -/
def rowWeight (scheme : Scheme) (l : List PortMember) (m : PortMember) : ℚ :=
  match scheme with
  | Scheme.equal => 1 / (groupCount l m.period m.side : ℚ)
  | Scheme.value => m.mv / groupMvSum l m.period m.side

/-- The weight sum of one `(rebalance_period, position)` group. -/
def groupWeightSum (scheme : Scheme) (l : List PortMember) (p : Nat) (s : Side) : ℚ :=
  ((groupRows l p s).map (rowWeight scheme l)).sum

/-- The tolerance of `np.allclose(weight_sums, 1.0)`:
`atol + rtol * |1.0| = 1e-8 + 1e-5`. -/
def npAllcloseTol : ℚ := 1/100000000 + 1/100000

/-- Model of `assign_weights` (portfolio_backtest.py, lines 150–186): weights
are computed per row, then `assert np.allclose(weight_sums, 1.0)` checks every
group's weight sum; a failing assertion aborts the run (`none`). -/
def assignWeights (scheme : Scheme) (l : List PortMember) :
    Option (List (PortMember × ℚ)) :=
  if l.all fun m => |groupWeightSum scheme l m.period m.side - 1| ≤ npAllcloseTol then
    some (l.map fun m => (m, rowWeight scheme l m))
  else
    none

lemma groupRows_mem {l : List PortMember} {p : Nat} {s : Side} {m : PortMember}
    (h : m ∈ groupRows l p s) : m ∈ l ∧ m.period = p ∧ m.side = s := by
  rw [groupRows, List.mem_filter] at h
  refine ⟨h.1, ?_⟩
  have := h.2
  simpa using this

lemma sum_map_div (l : List PortMember) (c : ℚ) :
    ((l.map fun m => m.mv / c)).sum = (l.map PortMember.mv).sum / c := by
  induction l with
  | nil => simp
  | cons x xs ih => simp [ih, add_div]

/-- The exact weight sum of a non-empty group: 1 under the equal scheme, and
1 under the value scheme whenever the group's market-value sum is non-zero. -/
lemma groupWeightSum_eq_one (scheme : Scheme) (l : List PortMember) (p : Nat) (s : Side)
    (hne : 0 < groupCount l p s)
    (hv : scheme = Scheme.value → groupMvSum l p s ≠ 0) :
    groupWeightSum scheme l p s = 1 := by
  cases scheme with
  | equal =>
    have hconst : ∀ m ∈ groupRows l p s, rowWeight Scheme.equal l m =
        1 / (groupCount l p s : ℚ) := by
      intro m hm
      obtain ⟨_, hp, hs⟩ := groupRows_mem hm
      rw [rowWeight, hp, hs]
    rw [groupWeightSum, sum_map_of_const _ _ _ hconst, groupCount]
    rw [groupCount] at hne
    field_simp
  | value =>
    have hS := hv rfl
    have hconst : ∀ m ∈ groupRows l p s, rowWeight Scheme.value l m =
        m.mv / groupMvSum l p s := by
      intro m hm
      obtain ⟨_, hp, hs⟩ := groupRows_mem hm
      rw [rowWeight, hp, hs]
    have hmap : (groupRows l p s).map (rowWeight Scheme.value l) =
        (groupRows l p s).map fun m => m.mv / groupMvSum l p s := by
      exact List.map_congr_left hconst
    rw [groupWeightSum, hmap, sum_map_div, ← groupMvSum, div_self hS]

/-- C1: every non-empty `(rebalance_period, position)` group either has its
weights summing to 1 within 1e-9 (under either scheme), or the
`np.allclose` assertion fires and `assign_weights` aborts the run. -/
theorem assign_weights_group_sum_one (scheme : Scheme) (l : List PortMember)
    (p : Nat) (s : Side) (hne : 0 < groupCount l p s) :
    |groupWeightSum scheme l p s - 1| ≤ 1/1000000000
    ∨ assignWeights scheme l = none := by
  by_cases hz : scheme = Scheme.value ∧ groupMvSum l p s = 0
  · right
    obtain ⟨hs, hS⟩ := hz
    subst hs
    have hzero : groupWeightSum Scheme.value l p s = 0 := by
      have hconst : ∀ m ∈ groupRows l p s, rowWeight Scheme.value l m = 0 := by
        intro m hm
        obtain ⟨_, hp, hsd⟩ := groupRows_mem hm
        rw [rowWeight, hp, hsd, hS, div_zero]
      rw [groupWeightSum, sum_map_of_const _ _ _ hconst, mul_zero]
    obtain ⟨m, hm⟩ : ∃ m, m ∈ groupRows l p s := by
      rcases h : groupRows l p s with _ | ⟨m, ms⟩
      · rw [groupCount, h] at hne
        simp at hne
      · exact ⟨m, List.mem_cons_self m ms⟩
    obtain ⟨hml, hp, hsd⟩ := groupRows_mem hm
    rw [assignWeights, if_neg]
    intro hall
    rw [List.all_eq_true] at hall
    have := hall m hml
    rw [hp, hsd, hzero] at this
    norm_num [npAllcloseTol] at this
  · left
    have hv : scheme = Scheme.value → groupMvSum l p s ≠ 0 := by
      intro hs hS
      exact hz ⟨hs, hS⟩
    rw [groupWeightSum_eq_one scheme l p s hne hv]
    norm_num

/-- Witness for C1: a singleton equal-weight group. -/
theorem assign_weights_group_sum_one_witness :
    |groupWeightSum Scheme.equal [⟨0, 0, 0, 1, Side.long⟩] 0 Side.long - 1| ≤ 1/1000000000
    ∨ assignWeights Scheme.equal [⟨0, 0, 0, 1, Side.long⟩] = none :=
  assign_weights_group_sum_one Scheme.equal [⟨0, 0, 0, 1, Side.long⟩] 0 Side.long (by decide)

/-! ## Portfolio formation (`portfolio_backtest.py`, `form_portfolios`) -/

/-- One row of the aggregated signal frame for one rebalance period:
`(Ticker, signal_score, MV_USD_lag)`. -/
structure Entry where
  ticker : Nat
  score : ℚ
  mv : ℚ
  deriving DecidableEq

/-- `rank(pct=True) * 100` with pandas' default average-rank tie convention:
the percentile rank of value `v` in the cross-section `scores` is
`(#(u < v) + (#(u = v) + 1)/2) / n * 100`. -/
def rankPct (scores : List ℚ) (v : ℚ) : ℚ :=
  (((scores.filter fun u => u < v).length : ℚ)
    + (((scores.filter fun u => u = v).length : ℚ) + 1) / 2)
  / (scores.length : ℚ) * 100

/-- `long_members`: rows whose percentile rank is `>= long_pct`. -/
def longMembers (pd : List Entry) (longPct : ℚ) : List Entry :=
  pd.filter fun e => longPct ≤ rankPct (pd.map Entry.score) e.score

/-- `short_members`: rows whose percentile rank is `<= short_pct`. -/
def shortMembers (pd : List Entry) (shortPct : ℚ) : List Entry :=
  pd.filter fun e => rankPct (pd.map Entry.score) e.score ≤ shortPct

/-- A bucket row of `portfolio_df`, tagged with its rebalance period index. -/
def toPort (idx : Nat) (s : Side) (e : Entry) : PortMember :=
  ⟨idx, e.ticker, e.score, e.mv, s⟩

/-- The `portfolio_members` list built by the loop of `form_portfolios`
(lines 110–133): a period with fewer than `min_tickers` rows is skipped,
otherwise its long frame and short frame are both appended. -/
def formAux (longPct shortPct : ℚ) (minTickers : Nat) :
    Nat → List (List Entry) → List (List PortMember)
  | _, [] => []
  | idx, pd :: rest =>
    if minTickers ≤ pd.length then
      (longMembers pd longPct).map (toPort idx Side.long) ::
        (shortMembers pd shortPct).map (toPort idx Side.short) ::
        formAux longPct shortPct minTickers (idx + 1) rest
    else
      formAux longPct shortPct minTickers (idx + 1) rest

/-- Model of `form_portfolios`: `pd.concat(portfolio_members)` raises a
`ValueError` (`none`) when the list of frames is empty, i.e. when every
rebalance period was skipped. -/
def formPortfolios (periods : List (List Entry)) (longPct shortPct : ℚ)
    (minTickers : Nat) : Option (List PortMember) :=
  let frames := formAux longPct shortPct minTickers 0 periods
  if frames.isEmpty then none else some frames.flatten

/-- The `form_portfolios` → `assign_weights` chain of `run_backtest`
(an exception in either step propagates and aborts the run). -/
def runBacktest (periods : List (List Entry)) (longPct shortPct : ℚ)
    (minTickers : Nat) (scheme : Scheme) : Option (List (PortMember × ℚ)) :=
  (formPortfolios periods longPct shortPct minTickers).bind fun pf =>
    assignWeights scheme pf

/-- C8: with disjoint percentile thresholds (`short_pct < long_pct`), no
entry is a member of both the long and the short bucket of a rebalance
period, ties notwithstanding. -/
theorem form_portfolios_buckets_disjoint (pd : List Entry) (longPct shortPct : ℚ)
    (e : Entry) (h : shortPct < longPct) :
    ¬(e ∈ longMembers pd longPct ∧ e ∈ shortMembers pd shortPct) := by
  rintro ⟨hl, hs⟩
  rw [longMembers, List.mem_filter] at hl
  rw [shortMembers, List.mem_filter] at hs
  have h1 : longPct ≤ rankPct (pd.map Entry.score) e.score := by
    have := hl.2
    simpa using this
  have h2 : rankPct (pd.map Entry.score) e.score ≤ shortPct := by
    have := hs.2
    simpa using this
  linarith

/-- Witness for C8 at the configured thresholds 80/20. -/
theorem form_portfolios_buckets_disjoint_witness :
    ¬((⟨0, 0, 0⟩ : Entry) ∈ longMembers [⟨0, 0, 0⟩] 80
      ∧ (⟨0, 0, 0⟩ : Entry) ∈ shortMembers [⟨0, 0, 0⟩] 20) :=
  form_portfolios_buckets_disjoint [⟨0, 0, 0⟩] 80 20 ⟨0, 0, 0⟩ (by norm_num)

lemma formAux_nil (longPct shortPct : ℚ) (minTickers : Nat) :
    ∀ (periods : List (List Entry)) (idx : Nat),
      (∀ pd ∈ periods, pd.length < minTickers) →
      formAux longPct shortPct minTickers idx periods = []
  | [], _, _ => rfl
  | pd :: rest, idx, h => by
    rw [formAux, if_neg (by have := h pd (List.mem_cons_self pd rest); omega)]
    exact formAux_nil longPct shortPct minTickers rest (idx + 1)
      fun q hq => h q (List.mem_cons_of_mem pd hq)

/-- C10: when every rebalance period has fewer tickers than `min_tickers`,
`form_portfolios` raises (`pd.concat` over an empty list) instead of
returning an empty portfolio, and the backtest run aborts. -/
theorem form_portfolios_all_periods_skipped (periods : List (List Entry))
    (longPct shortPct : ℚ) (minTickers : Nat) (scheme : Scheme)
    (h : ∀ pd ∈ periods, pd.length < minTickers) :
    formPortfolios periods longPct shortPct minTickers = none
    ∧ runBacktest periods longPct shortPct minTickers scheme = none := by
  have hnil := formAux_nil longPct shortPct minTickers periods 0 h
  have h1 : formPortfolios periods longPct shortPct minTickers = none := by
    simp only [formPortfolios]
    rw [hnil]
    rfl
  exact ⟨h1, by rw [runBacktest, h1]; rfl⟩

/-- Witness for C10: a single one-ticker period with `min_tickers = 20`. -/
theorem form_portfolios_all_periods_skipped_witness :
    formPortfolios [[⟨0, 0, 0⟩]] 80 20 20 = none
    ∧ runBacktest [[⟨0, 0, 0⟩]] 80 20 20 Scheme.equal = none :=
  form_portfolios_all_periods_skipped [[⟨0, 0, 0⟩]] 80 20 20 Scheme.equal
    (by intro pd hpd; simp at hpd; subst hpd; norm_num)

/-! ## Max drawdown (`portfolio_backtest.py`, `calculate_performance_metrics`,
lines 316–320) -/

/-- `(1 + returns).cumprod()`: running product with accumulator. -/
def cumprodAux : ℚ → List ℚ → List ℚ
  | _, [] => []
  | a, x :: r => (a * x) :: cumprodAux (a * x) r

/-- `cumulative = (1 + returns).cumprod()`. -/
def cumCapital (rs : List ℚ) : List ℚ :=
  cumprodAux 1 (rs.map fun r => 1 + r)

/-- `cumulative.expanding().max()`: running maximum, seeded. -/
def runMaxAux : ℚ → List ℚ → List ℚ
  | _, [] => []
  | m, x :: r => max m x :: runMaxAux (max m x) r

/-- `running_max = cumulative.expanding().max()`. -/
def runMax : List ℚ → List ℚ
  | [] => []
  | x :: r => x :: runMaxAux x r

/-- `drawdown = (cumulative - running_max) / running_max`, elementwise. -/
def drawdownRatio (c m : ℚ) : ℚ := (c - m) / m

/-- The elementwise drawdown series. -/
def drawdowns (rs : List ℚ) : List ℚ :=
  List.zipWith drawdownRatio (cumCapital rs) (runMax (cumCapital rs))

/-- `.min()` of a series (the empty case, `NaN` in pandas, is arbitrary). -/
def minList : List ℚ → ℚ
  | [] => 0
  | x :: r => r.foldl min x

/-- `max_drawdown = drawdown.min()`. -/
def maxDrawdown (rs : List ℚ) : ℚ := minList (drawdowns rs)

lemma foldl_min_le_init (l : List ℚ) : ∀ a : ℚ, l.foldl min a ≤ a := by
  induction l with
  | nil => intro a; exact le_refl a
  | cons x r ih =>
    intro a
    calc (x :: r : List ℚ).foldl min a = r.foldl min (min a x) := rfl
    _ ≤ min a x := ih (min a x)
    _ ≤ a := min_le_left a x

lemma foldl_min_le_mem (l : List ℚ) : ∀ (a x : ℚ), x ∈ l → l.foldl min a ≤ x := by
  induction l with
  | nil => intro a x hx; cases hx
  | cons y r ih =>
    intro a x hx
    rcases List.mem_cons.mp hx with h | h
    · subst h
      calc (x :: r : List ℚ).foldl min a = r.foldl min (min a x) := rfl
      _ ≤ min a x := foldl_min_le_init r (min a x)
      _ ≤ x := min_le_right a x
    · exact ih (min a y) x h

lemma foldl_min_mem (l : List ℚ) : ∀ a : ℚ, l.foldl min a = a ∨ l.foldl min a ∈ l := by
  induction l with
  | nil => intro a; exact Or.inl rfl
  | cons x r ih =>
    intro a
    rcases ih (min a x) with h | h
    · rcases min_choice a x with hm | hm
      · exact Or.inl (by rw [List.foldl_cons, h, hm])
      · exact Or.inr (by rw [List.foldl_cons, h, hm]; exact List.mem_cons_self x r)
    · exact Or.inr (List.mem_cons_of_mem x h)

lemma minList_mem (l : List ℚ) (h : l ≠ []) : minList l ∈ l := by
  cases l with
  | nil => exact absurd rfl h
  | cons x r =>
    rcases foldl_min_mem r x with h1 | h1
    · rw [minList, h1]
      exact List.mem_cons_self x r
    · exact List.mem_cons_of_mem x h1

lemma minList_le (l : List ℚ) (x : ℚ) (hx : x ∈ l) : minList l ≤ x := by
  cases l with
  | nil => cases hx
  | cons a r =>
    rcases List.mem_cons.mp hx with h | h
    · rw [h, minList]
      exact foldl_min_le_init r a
    · exact foldl_min_le_mem r a x h

lemma cumprodAux_pos : ∀ (l : List ℚ) (a : ℚ), 0 < a → (∀ x ∈ l, 0 < x) →
    ∀ c ∈ cumprodAux a l, 0 < c
  | [], _, _, _ => by simp [cumprodAux]
  | x :: r, a, ha, hl => by
    intro c hc
    have hx : 0 < x := hl x (List.mem_cons_self x r)
    have hax : 0 < a * x := mul_pos ha hx
    rw [cumprodAux, List.mem_cons] at hc
    rcases hc with h | h
    · rw [h]; exact hax
    · exact cumprodAux_pos r (a * x) hax (fun y hy => hl y (List.mem_cons_of_mem x hy)) c h

lemma drawdown_aux_bounds : ∀ (l : List ℚ) (m : ℚ), 0 < m → (∀ x ∈ l, 0 < x) →
    ∀ d ∈ List.zipWith drawdownRatio l (runMaxAux m l), -1 < d ∧ d ≤ 0
  | [], _, _, _ => by simp [runMaxAux]
  | x :: r, m, hm, hl => by
    intro d hd
    have hx : 0 < x := hl x (List.mem_cons_self x r)
    have hmx : 0 < max m x := lt_of_lt_of_le hm (le_max_left m x)
    rw [runMaxAux, List.zipWith_cons_cons, List.mem_cons] at hd
    rcases hd with h | h
    · subst h
      constructor
      · rw [drawdownRatio, lt_div_iff₀ hmx]
        nlinarith
      · exact div_nonpos_of_nonpos_of_nonneg (by nlinarith [le_max_right m x]) (le_of_lt hmx)
    · exact drawdown_aux_bounds r (max m x) hmx
        (fun y hy => hl y (List.mem_cons_of_mem x hy)) d h

lemma drawdown_aux_zero_iff : ∀ (l : List ℚ) (m : ℚ), 0 < m → (∀ x ∈ l, 0 < x) →
    ((∀ d ∈ List.zipWith drawdownRatio l (runMaxAux m l), d = 0)
      ↔ List.Chain (· ≤ ·) m l)
  | [], _, _, _ => by simp [runMaxAux]
  | x :: r, m, hm, hl => by
    have hx : 0 < x := hl x (List.mem_cons_self x r)
    have hmx : 0 < max m x := lt_of_lt_of_le hm (le_max_left m x)
    have hrest := fun y hy => hl y (List.mem_cons_of_mem x hy)
    rw [runMaxAux, List.zipWith_cons_cons, List.chain_cons]
    by_cases hle : m ≤ x
    · have hmax : max m x = x := max_eq_right hle
      rw [hmax]
      have hzero : drawdownRatio x x = 0 := by
        rw [drawdownRatio, sub_self, zero_div]
      constructor
      · intro hall
        refine ⟨hle, ?_⟩
        exact (drawdown_aux_zero_iff r x hx hrest).mp
          fun d hd => hall d (List.mem_cons_of_mem _ hd)
      · intro ⟨_, hchain⟩ d hd
        rcases List.mem_cons.mp hd with h | h
        · rw [h, hzero]
        · exact (drawdown_aux_zero_iff r x hx hrest).mpr hchain d h
    · constructor
      · intro hall
        exact absurd (hall (drawdownRatio x (max m x))
          (List.mem_cons_self _ _)) (by
            rw [drawdownRatio, div_eq_zero_iff]
            push_neg
            constructor
            · have hxm : x < m := lt_of_not_le hle
              have : max m x = m := max_eq_left (le_of_lt hxm)
              rw [this]
              intro hc
              exact absurd (by linarith : x = m) (ne_of_lt hxm)
            · exact ne_of_gt hmx)
      · intro ⟨hlem, _⟩
        exact absurd hlem hle

/-- C7 counterexample: for the daily return series `[0, -2]` the code's
`max_drawdown` is −2, outside `[-1, 0]` — the claimed bound fails when a
daily return can reach −200%. -/
theorem max_drawdown_bounds_cex :
    maxDrawdown [0, -2] = -2
    ∧ ¬(-1 ≤ maxDrawdown [0, -2] ∧ maxDrawdown [0, -2] ≤ 0) := by
  have h : maxDrawdown [0, -2] = -2 := by
    norm_num [maxDrawdown, drawdowns, cumCapital, cumprodAux, runMax, runMaxAux,
      minList, drawdownRatio, List.zipWith]
  exact ⟨h, by rw [h]; norm_num⟩

/-- C7 (amended): for every non-empty daily return series whose returns all
exceed −1, `max_drawdown` lies in `[-1, 0]` and equals 0 iff the cumulative
capital series is non-decreasing throughout. -/
theorem max_drawdown_bounds (rs : List ℚ) (hne : rs ≠ [])
    (hr : ∀ r ∈ rs, -1 < r) :
    (-1 ≤ maxDrawdown rs ∧ maxDrawdown rs ≤ 0)
    ∧ (maxDrawdown rs = 0 ↔ List.Chain' (· ≤ ·) (cumCapital rs)) := by
  obtain ⟨r0, rest, rfl⟩ : ∃ r0 rest, rs = r0 :: rest := by
    cases rs with
    | nil => exact absurd rfl hne
    | cons a l => exact ⟨a, l, rfl⟩
  have hc0 : 0 < 1 * (1 + r0) := by
    have := hr r0 (List.mem_cons_self r0 rest)
    nlinarith
  have hcum : cumCapital (r0 :: rest) =
      (1 * (1 + r0)) :: cumprodAux (1 * (1 + r0)) (rest.map fun x => 1 + x) := rfl
  have hposmap : ∀ y ∈ rest.map fun x => 1 + x, 0 < y := by
    intro y hy
    rw [List.mem_map] at hy
    obtain ⟨x, hx, rfl⟩ := hy
    have := hr x (List.mem_cons_of_mem r0 hx)
    linarith
  have hposl : ∀ c ∈ cumprodAux (1 * (1 + r0)) (rest.map fun x => 1 + x), 0 < c :=
    cumprodAux_pos _ _ hc0 hposmap
  have hdd : drawdowns (r0 :: rest) =
      0 :: List.zipWith drawdownRatio (cumprodAux (1 * (1 + r0)) (rest.map fun x => 1 + x))
        (runMaxAux (1 * (1 + r0)) (cumprodAux (1 * (1 + r0)) (rest.map fun x => 1 + x))) := by
    rw [drawdowns, hcum, runMax, List.zipWith_cons_cons, drawdownRatio, sub_self, zero_div]
  have hboundtail := drawdown_aux_bounds
    (cumprodAux (1 * (1 + r0)) (rest.map fun x => 1 + x)) (1 * (1 + r0)) hc0 hposl
  have hddne : drawdowns (r0 :: rest) ≠ [] := by
    rw [hdd]
    exact List.cons_ne_nil _ _
  have hbound : ∀ d ∈ drawdowns (r0 :: rest), -1 < d ∧ d ≤ 0 := by
    intro d hd
    rw [hdd, List.mem_cons] at hd
    rcases hd with h | h
    · rw [h]; norm_num
    · exact hboundtail d h
  have hmem := minList_mem (drawdowns (r0 :: rest)) hddne
  have hmdd : maxDrawdown (r0 :: rest) = minList (drawdowns (r0 :: rest)) := rfl
  constructor
  · constructor
    · rw [hmdd]
      exact le_of_lt (hbound _ hmem).1
    · rw [hmdd]
      exact (hbound _ hmem).2
  · rw [hmdd]
    constructor
    · intro h0
      have hall : ∀ d ∈ drawdowns (r0 :: rest), d = 0 := by
        intro d hd
        have h1 := minList_le (drawdowns (r0 :: rest)) d hd
        rw [h0] at h1
        exact le_antisymm (hbound d hd).2 h1
      have hchain : List.Chain (· ≤ ·) (1 * (1 + r0))
          (cumprodAux (1 * (1 + r0)) (rest.map fun x => 1 + x)) := by
        refine (drawdown_aux_zero_iff _ _ hc0 hposl).mp ?_
        intro d hd
        exact hall d (by rw [hdd]; exact List.mem_cons_of_mem _ hd)
      rw [hcum]
      exact hchain
    · intro hchain
      have hchain' : List.Chain (· ≤ ·) (1 * (1 + r0))
          (cumprodAux (1 * (1 + r0)) (rest.map fun x => 1 + x)) := by
        rw [hcum] at hchain
        exact hchain
      have htail := (drawdown_aux_zero_iff _ _ hc0 hposl).mpr hchain'
      have hall : ∀ d ∈ drawdowns (r0 :: rest), d = 0 := by
        intro d hd
        rw [hdd, List.mem_cons] at hd
        rcases hd with h | h
        · exact h
        · exact htail d h
      exact hall _ hmem

/-- Witness for the amended C7 on a concrete series. -/
theorem max_drawdown_bounds_witness :
    ((-1 ≤ maxDrawdown [1/10, -1/20] ∧ maxDrawdown [1/10, -1/20] ≤ 0)
    ∧ (maxDrawdown [1/10, -1/20] = 0 ↔ List.Chain' (· ≤ ·) (cumCapital [1/10, -1/20]))) :=
  max_drawdown_bounds [1/10, -1/20] (by simp) (by norm_num)

/-! ## Sentiment fusion (`sentiment_merge_daily.py` / `sentiment_merge_monthly.py`,
`fuse_group`) -/

/-- One raw observation of a `(ticker, date)` group: its decay offset
`delta_t` and its sentiment value.  A float `NaN` sentiment (the non-finite
value produced upstream) is modelled as `none`; pandas sums skip such terms
(`skipna`), which the summation definitions below reproduce. -/
structure SObs where
  delta_t : ℝ
  sentiment : Option ℝ

/-- `w = 2.0 ** (-delta_t / half_life)` for one observation. -/
noncomputable def decayW (halfLife : ℝ) (o : SObs) : ℝ :=
  (2 : ℝ) ^ (-o.delta_t / halfLife)

/-- `num = (w * sentiment).sum()` — a `NaN` sentiment makes its term `NaN`,
which the pandas sum skips (contributes nothing). -/
noncomputable def fuseNum (group : List SObs) (halfLife : ℝ) : ℝ :=
  (group.map fun o =>
    match o.sentiment with
    | some v => decayW halfLife o * v
    | none => 0).sum

/-- `den = w.sum()` — every observation's decay weight enters, including the
weights of observations whose sentiment is `NaN`. -/
noncomputable def fuseDen (group : List SObs) (halfLife : ℝ) : ℝ :=
  (group.map (decayW halfLife)).sum

/-- `(w * sentiment.abs()).sum()` with the same `skipna` convention. -/
noncomputable def fuseAbsSum (group : List SObs) (halfLife : ℝ) : ℝ :=
  (group.map fun o =>
    match o.sentiment with
    | some v => decayW halfLife o * |v|
    | none => 0).sum

/-- `q = abs(num) / ((w * sentiment.abs()).sum() + eps)`. -/
noncomputable def fuseQ (group : List SObs) (halfLife eps : ℝ) : ℝ :=
  |fuseNum group halfLife| / (fuseAbsSum group halfLife + eps)

/-- The fields `fuse_group` writes on the fused row of a `(ticker, date)`
group. -/
structure FusedRow where
  sentimentBar : Option ℝ
  q : ℝ
  sentiment : Option ℝ

/-- Model of one day-group iteration of `fuse_group`
(sentiment_merge_daily.py, lines 26–42): `sentiment_bar` is the weighted
mean, guarded against a zero weight sum (`NaN` = `none` otherwise); a
single-observation group passes its raw sentiment through, and a
multi-observation group gets `tanh(beta * sentiment_bar) * q`. -/
noncomputable def fuseDay (group : List SObs) (halfLife beta eps : ℝ) : FusedRow :=
  let num := fuseNum group halfLife
  let den := fuseDen group halfLife
  let sentimentBar : Option ℝ := if den ≠ 0 then some (num / den) else none
  let q := fuseQ group halfLife eps
  let sentimentT : Option ℝ :=
    if group.length = 1 then group.head?.bind SObs.sentiment
    else sentimentBar.map fun b => Real.tanh (beta * b) * q
  ⟨sentimentBar, q, sentimentT⟩

/-- C3: a `(ticker, date)` group with exactly one observation passes the raw
sentiment value through unchanged — no decay weighting, saturation or
dispersion penalty is applied to it. -/
theorem fuse_single_passthrough (o : SObs) (halfLife beta eps : ℝ) :
    (fuseDay [o] halfLife beta eps).sentiment = o.sentiment := by
  simp [fuseDay]

lemma decayW_pos (halfLife : ℝ) (o : SObs) : 0 < decayW halfLife o :=
  Real.rpow_pos_of_pos (by norm_num) _

lemma list_abs_sum_le (l : List ℝ) : |l.sum| ≤ (l.map fun x => |x|).sum := by
  induction l with
  | nil => simp
  | cons x r ih =>
    rw [List.sum_cons, List.map_cons, List.sum_cons]
    calc |x + r.sum| ≤ |x| + |r.sum| := abs_add x r.sum
    _ ≤ |x| + (r.map fun y => |y|).sum := by linarith

lemma fuse_num_abs_le (group : List SObs) (halfLife : ℝ) :
    |fuseNum group halfLife| ≤ fuseAbsSum group halfLife := by
  rw [fuseNum, fuseAbsSum]
  refine le_trans (list_abs_sum_le _) ?_
  rw [List.map_map]
  apply List.sum_le_sum
  intro o _
  rcases ho : o.sentiment with _ | v
  · simp [ho]
  · simp only [Function.comp_apply, ho]
    rw [abs_mul, abs_of_pos (decayW_pos halfLife o)]

lemma fuseAbsSum_nonneg (group : List SObs) (halfLife : ℝ) :
    0 ≤ fuseAbsSum group halfLife := by
  rw [fuseAbsSum]
  apply List.sum_nonneg
  intro x hx
  rw [List.mem_map] at hx
  obtain ⟨o, _, rfl⟩ := hx
  rcases ho : o.sentiment with _ | v
  · simp [ho]
  · simp only [ho]
    exact mul_nonneg (le_of_lt (decayW_pos halfLife o)) (abs_nonneg v)

/-- C4: for a group of finite-valued observations with non-negative decay
offsets, positive half-life and positive epsilon, the dispersion ratio `q`
computed by `fuse_group` lies in `[0, 1]`. -/
theorem fuse_q_bounds (group : List SObs) (halfLife beta eps : ℝ)
    (_hne : group ≠ []) (_hfin : ∀ o ∈ group, o.sentiment.isSome = true)
    (_hdt : ∀ o ∈ group, 0 ≤ o.delta_t) (_hhl : 0 < halfLife) (heps : 0 < eps) :
    0 ≤ (fuseDay group halfLife beta eps).q
    ∧ (fuseDay group halfLife beta eps).q ≤ 1 := by
  have hq : (fuseDay group halfLife beta eps).q = fuseQ group halfLife eps := rfl
  have habs : 0 ≤ fuseAbsSum group halfLife := fuseAbsSum_nonneg group halfLife
  have hden : 0 < fuseAbsSum group halfLife + eps := by linarith
  rw [hq, fuseQ]
  constructor
  · exact div_nonneg (abs_nonneg _) (le_of_lt hden)
  · rw [div_le_one hden]
    have := fuse_num_abs_le group halfLife
    linarith

/-- Witness for C4 on a two-observation group. -/
theorem fuse_q_bounds_witness :
    0 ≤ (fuseDay [⟨0, some 1⟩, ⟨0, some (-1)⟩] 1 3 1).q
    ∧ (fuseDay [⟨0, some 1⟩, ⟨0, some (-1)⟩] 1 3 1).q ≤ 1 :=
  fuse_q_bounds [⟨0, some 1⟩, ⟨0, some (-1)⟩] 1 3 1 (by simp)
    (by intro o ho; simp only [List.mem_cons, List.mem_singleton,
        List.not_mem_nil, or_false] at ho; rcases ho with rfl | rfl <;> rfl)
    (by intro o ho; simp only [List.mem_cons, List.mem_singleton,
        List.not_mem_nil, or_false] at ho; rcases ho with rfl | rfl <;> norm_num)
    (by norm_num) (by norm_num)

lemma fuseDen_pos (group : List SObs) (halfLife : ℝ) (hne : group ≠ []) :
    0 < fuseDen group halfLife := by
  cases group with
  | nil => exact absurd rfl hne
  | cons o rest =>
    rw [fuseDen, List.map_cons, List.sum_cons]
    have h1 : 0 < decayW halfLife o := decayW_pos halfLife o
    have h2 : 0 ≤ (rest.map (decayW halfLife)).sum := by
      apply List.sum_nonneg
      intro x hx
      rw [List.mem_map] at hx
      obtain ⟨p, _, rfl⟩ := hx
      exact le_of_lt (decayW_pos halfLife p)
    linarith

/-! The `w`/`num`/`den`/`sentiment_bar` block of `fuse_group`
(sentiment_merge_daily.py, lines 27–30) is evaluated by the program in
float64.  `decayW` above idealizes `np.power(2.0, -delta_t/half_life)` as a
real power, which is adequate for the pass-through, `q`-bound and `NaN`
properties, but it erases underflow: a float64 power of 2 whose exponent is
at most −1075 has true value at most `2^(-1075)`, half of the smallest
positive subnormal `2^(-1074)`, so the correctly rounded float64 result is
exactly `0.0`.  The definitions below model the same source lines with that
underflow made explicit (results above the threshold are positive and are
idealized by their real value, which is faithful for sign and zero-ness,
the only aspects used). -/

/-- Float64-underflow-aware model of the decay weight
`np.power(2.0, -delta_t/half_life)` (line 27): exponents `-delta_t/half_life`
at or below −1075 underflow to exactly 0.0. -/
noncomputable def decayWF (halfLife : ℝ) (o : SObs) : ℝ :=
  if 1075 ≤ o.delta_t / halfLife then 0 else (2 : ℝ) ^ (-o.delta_t / halfLife)

/-- `num = (w * sentiment).sum()` (line 28) over the underflow-aware
weights, with the pandas `skipna` convention. -/
noncomputable def fuseNumF (group : List SObs) (halfLife : ℝ) : ℝ :=
  (group.map fun o =>
    match o.sentiment with
    | some v => decayWF halfLife o * v
    | none => 0).sum

/-- `den = w.sum()` (line 29) over the underflow-aware weights. -/
noncomputable def fuseDenF (group : List SObs) (halfLife : ℝ) : ℝ :=
  (group.map (decayWF halfLife)).sum

/-- `sentiment_bar = num / den if den != 0 else np.nan` (line 30) over the
underflow-aware weights; `none` is the `NaN` branch. -/
noncomputable def fuseBarF (group : List SObs) (halfLife : ℝ) : Option ℝ :=
  if fuseDenF group halfLife ≠ 0 then
    some (fuseNumF group halfLife / fuseDenF group halfLife)
  else none

lemma decayWF_nonneg (halfLife : ℝ) (o : SObs) : 0 ≤ decayWF halfLife o := by
  rw [decayWF]
  split
  · exact le_refl 0
  · exact le_of_lt (Real.rpow_pos_of_pos (by norm_num) _)

lemma decayWF_pos_of_lt (halfLife : ℝ) (o : SObs)
    (h : o.delta_t / halfLife < 1075) : 0 < decayWF halfLife o := by
  rw [decayWF, if_neg (not_le.mpr h)]
  exact Real.rpow_pos_of_pos (by norm_num) _

/-- C9 counterexample: at `delta_t = 2048`, `half_life = 1` — finite,
non-negative, positive half-life, i.e. inputs satisfying every hypothesis of
the claim — the float64 decay weight underflows to exactly 0.0, the weight
sum of the (non-empty) group is 0, and `fuse_group` takes precisely the
degenerate `den == 0` `NaN` branch the claim calls unreachable. -/
theorem fuse_den_underflow_cex :
    decayWF 1 ⟨2048, some 1⟩ = 0
    ∧ fuseDenF [⟨2048, some 1⟩] 1 = 0
    ∧ fuseBarF [⟨2048, some 1⟩] 1 = none := by
  have hw : decayWF 1 (⟨2048, some 1⟩ : SObs) = 0 := by
    rw [decayWF, if_pos (by norm_num)]
  have hden : fuseDenF [⟨2048, some 1⟩] 1 = 0 := by
    rw [fuseDenF]
    simp [hw]
  refine ⟨hw, hden, ?_⟩
  rw [fuseBarF, hden]
  simp

/-- C9 (amended): decay weights are strictly positive — and the weight sum
of a non-empty group therefore non-zero, so the `den == 0` `NaN` branch is
not taken — only as long as every `delta_t / half_life` stays below the
float64 underflow threshold 1075; beyond it the weight underflows to exactly
0.0 and the `NaN` branch of `fuse_group` is reachable. -/
theorem fuse_den_pos_bar_defined_float (group : List SObs) (halfLife : ℝ)
    (hne : group ≠ []) (_hdt : ∀ o ∈ group, 0 ≤ o.delta_t) (_hhl : 0 < halfLife)
    (huf : ∀ o ∈ group, o.delta_t / halfLife < 1075) :
    (∀ o ∈ group, 0 < decayWF halfLife o)
    ∧ 0 < fuseDenF group halfLife
    ∧ fuseBarF group halfLife
        = some (fuseNumF group halfLife / fuseDenF group halfLife) := by
  have hpos : ∀ o ∈ group, 0 < decayWF halfLife o :=
    fun o ho => decayWF_pos_of_lt halfLife o (huf o ho)
  have hden : 0 < fuseDenF group halfLife := by
    cases group with
    | nil => exact absurd rfl hne
    | cons o rest =>
      rw [fuseDenF, List.map_cons, List.sum_cons]
      have h1 : 0 < decayWF halfLife o := hpos o (List.mem_cons_self o rest)
      have h2 : 0 ≤ (rest.map (decayWF halfLife)).sum := by
        apply List.sum_nonneg
        intro x hx
        rw [List.mem_map] at hx
        obtain ⟨p, _, rfl⟩ := hx
        exact decayWF_nonneg halfLife p
      linarith
  exact ⟨hpos, hden, by rw [fuseBarF, if_pos (ne_of_gt hden)]⟩

/-- Witness for the amended C9 on a singleton group below the underflow
threshold. -/
theorem fuse_den_pos_bar_defined_float_witness :
    (∀ o ∈ [(⟨0, some 1⟩ : SObs)], 0 < decayWF 1 o)
    ∧ 0 < fuseDenF [(⟨0, some 1⟩ : SObs)] 1
    ∧ fuseBarF [(⟨0, some 1⟩ : SObs)] 1
        = some (fuseNumF [(⟨0, some 1⟩ : SObs)] 1 / fuseDenF [(⟨0, some 1⟩ : SObs)] 1) :=
  fuse_den_pos_bar_defined_float [(⟨0, some 1⟩ : SObs)] 1 (by simp)
    (by intro o ho; simp only [List.mem_singleton] at ho; subst ho; norm_num)
    (by norm_num)
    (by intro o ho; simp only [List.mem_singleton] at ho; subst ho; norm_num)

/-- C5 counterexample: a two-observation group whose sentiments are both
`NaN` is not dropped by `fuse_group` — it is emitted with fused sentiment 0
(zero-filled), and the `NaN` observations' decay weights still enter the
weight denominator (`den = 2`, not 0), so they were not excluded before
weighting. -/
theorem fuse_all_nan_zero_filled_cex :
    (fuseDay [⟨0, none⟩, ⟨0, none⟩] 1 3 (1/1000000)).sentiment = some 0
    ∧ fuseDen [⟨0, none⟩, ⟨0, none⟩] 1 = 2 := by
  have hw : decayW 1 (⟨0, none⟩ : SObs) = 1 := by
    rw [decayW]
    norm_num
  have hden : fuseDen [⟨0, none⟩, ⟨0, none⟩] 1 = 2 := by
    rw [fuseDen]
    simp [hw]
    norm_num
  have hnum : fuseNum [⟨0, none⟩, ⟨0, none⟩] 1 = 0 := by
    rw [fuseNum]
    simp
  refine ⟨?_, hden⟩
  simp only [fuseDay]
  rw [if_neg (show ¬(([⟨0, none⟩, ⟨0, none⟩] : List SObs).length = 1) by norm_num)]
  rw [if_pos (show fuseDen [⟨0, none⟩, ⟨0, none⟩] 1 ≠ 0 by rw [hden]; norm_num)]
  rw [hnum, zero_div]
  simp [Real.tanh_zero]

lemma sum_map_eq_zero {α : Type} (l : List α) (f : α → ℝ)
    (h : ∀ x ∈ l, f x = 0) : (l.map f).sum = 0 := by
  induction l with
  | nil => simp
  | cons x r ih =>
    rw [List.map_cons, List.sum_cons, h x (List.mem_cons_self x r),
      ih fun y hy => h y (List.mem_cons_of_mem x hy), add_zero]

/-- C5 (amended): `NaN` values are skipped only inside the pandas sums —
their decay weights still enter the denominator — and a key whose
observations are all `NaN` is not dropped: a multi-observation all-`NaN`
group is emitted with fused sentiment exactly 0. -/
theorem fuse_all_nan_zero_filled (group : List SObs) (halfLife beta eps : ℝ)
    (hlen : 2 ≤ group.length) (hnan : ∀ o ∈ group, o.sentiment = none) :
    (fuseDay group halfLife beta eps).sentiment = some 0 := by
  have hne : group ≠ [] := by
    intro h
    rw [h] at hlen
    simp at hlen
  have hnum : fuseNum group halfLife = 0 := by
    rw [fuseNum]
    apply sum_map_eq_zero
    intro o ho
    rw [hnan o ho]
  have hden : 0 < fuseDen group halfLife := fuseDen_pos group halfLife hne
  have hlen1 : group.length ≠ 1 := by omega
  simp only [fuseDay]
  rw [if_neg hlen1]
  rw [if_pos (ne_of_gt hden), hnum, zero_div]
  simp [Real.tanh_zero]

/-- Witness for the amended C5. -/
theorem fuse_all_nan_zero_filled_witness :
    (fuseDay [⟨0, none⟩, ⟨1, none⟩] 2 3 (1/1000000)).sentiment = some 0 :=
  fuse_all_nan_zero_filled [⟨0, none⟩, ⟨1, none⟩] 2 3 (1/1000000) (by norm_num)
    (by intro o ho; simp only [List.mem_cons, List.mem_singleton,
        List.not_mem_nil, or_false] at ho; rcases ho with rfl | rfl <;> rfl)

end CampusBacktest
